import Mathlib

/-!
# Frame selection of `Animation` and the `SAnimationManager` registry

A shallow embedding of `src/SFML/Animation/Animation.h` and
`src/SFML/Animation/AnimationManager.cpp`.

Modelling conventions.

* A time or a duration (`float` in the source) is a finite binary32 value,
  represented by the rational number it denotes.  The arithmetic of
  `GetCurrentFrame` is binary32 arithmetic: the subtraction, the product and the
  quotient are each rounded to the nearest binary32 value, ties to even
  (`f32Round`).  The result of an operation is an `Option ℚ`: `none` stands for a
  non-finite result (an infinity or a NaN), which stays non-finite through the
  operations that follow.
* A frame (`sf::Texture*` in the source) is an opaque handle of an arbitrary
  type `α`; the frame vector is a `List α`.
* `int temp` is obtained by truncation toward zero; a value outside the range
  of `int`, an infinity and a NaN convert to `INT_MIN`, as the conversion
  instruction of x86-64 does (the C++ standard leaves these conversions
  undefined).
* A member function that mutates the object returns the new object next to its
  result (explicit state passing).
-/

/-- Ways in which `GetCurrentFrame` yields no frame. -/
inductive AnimError where
  /-- the exception `std::runtime_error("No frames in animation")` -/
  | emptyAnimation : AnimError
  /-- the access `m_frames[pos]` with `pos` not below `m_frames.size()`
      (no frame is stored there; undefined behaviour in the source) -/
  | outOfRange (pos : Nat) : AnimError
  deriving DecidableEq, Repr

/-- Data members of `class Animation` (Animation.h, lines 14-19). -/
structure Animation (α : Type) where
  /-- The time when the animation started -/
  m_startTime : ℚ
  /-- The total duration of the animation -/
  m_maxDuration : ℚ
  /-- The frames of the animation -/
  m_frames : List α
  /-- Flag for looping the animation -/
  m_bLoop : Bool
  /-- Flag for finished animation, default to false -/
  m_bFinished : Bool := false
  /-- Flag for reversed animation, default to false -/
  m_bReversed : Bool := false
  deriving DecidableEq, Repr

/-! ## Binary32 arithmetic -/

/-- Rounding of a rational to the nearest integer, ties to the even one. -/
def roundHalfEven (x : ℚ) : Int :=
  if x - ⌊x⌋ < 1 / 2 then ⌊x⌋
  else if 1 / 2 < x - ⌊x⌋ then ⌊x⌋ + 1
  else if ⌊x⌋ % 2 = 0 then ⌊x⌋ else ⌊x⌋ + 1

/-- The binary32 exponent of a rational `q`: `⌊log₂ |q|⌋`, and `-126` (the
exponent of the subnormal values) when that is smaller. -/
def f32Exponent (q : ℚ) : Int := max (Int.log 2 |q|) (-126)

/-- Rounding of an exact result to binary32, to nearest, ties to even: the
nearest multiple of `2 ^ (exponent - 23)` (a 24-bit significand), and `none`
(an infinity) when its magnitude reaches `2 ^ 128`. -/
def f32Round (q : ℚ) : Option ℚ :=
  let r : ℚ := roundHalfEven (q / 2 ^ (f32Exponent q - 23)) * 2 ^ (f32Exponent q - 23)
  if |r| < 2 ^ 128 then some r else none

/-- Whether a rational is a binary32 value: rounding leaves it unchanged. -/
def isF32 (q : ℚ) : Bool := f32Round q == some q

/-- The binary32 value nearest to `q`: the value of the literal `q` written
with the suffix `f` (for `q` within the binary32 range). -/
def toFloat32 (q : ℚ) : ℚ := (f32Round q).getD 0

/-- The binary32 difference `a - b` of two finite values. -/
def f32Sub (a b : ℚ) : Option ℚ := f32Round (a - b)

/-- Conversion of a `std::size_t` value to `float`. -/
def f32OfNat (n : Nat) : Option ℚ := f32Round n

/-- The binary32 product: a non-finite operand gives a non-finite result. -/
def f32Mul : Option ℚ → Option ℚ → Option ℚ
  | some a, some b => f32Round (a * b)
  | _, _ => none

/-- The binary32 quotient by a finite value: a division by zero gives an
infinity or a NaN, a non-finite dividend gives a non-finite result. -/
def f32Div : Option ℚ → ℚ → Option ℚ
  | some a, b => if b = 0 then none else f32Round (a / b)
  | none, _ => none

/-- Truncation toward zero: the fractional part is discarded. -/
def truncToInt (q : ℚ) : Int := if 0 ≤ q then ⌊q⌋ else ⌈q⌉

/-- Conversion of a `float` value to `int`: truncation toward zero when the
result fits an `int`; `INT_MIN` for a value out of range, an infinity or a
NaN. -/
def f32ToInt : Option ℚ → Int
  | some q =>
    if -2 ^ 31 ≤ truncToInt q ∧ truncToInt q < 2 ^ 31 then truncToInt q else -2 ^ 31
  | none => -2 ^ 31

namespace Animation

variable {α : Type}

/-- Constructor `Animation(float _maxDuration, bool _animationLoop)`
(Animation.h, lines 28-30): start time `-1`, no frames, flags at their
defaults. -/
def construct (α : Type) (_maxDuration : ℚ) (_animationLoop : Bool) : Animation α :=
  { m_startTime := -1
    m_maxDuration := _maxDuration
    m_frames := []
    m_bLoop := _animationLoop }

/-- Member `AddFrame` (line 37): `m_frames.push_back(_frame)`. -/
def AddFrame (a : Animation α) (_frame : α) : Animation α :=
  { a with m_frames := a.m_frames ++ [_frame] }

/-- Member `hasStarted` (line 44): `m_startTime >= 0.f`. -/
def hasStarted (a : Animation α) : Bool := decide (0 ≤ a.m_startTime)

/-- Member `IsFinished` (line 51): `m_bFinished`. -/
def IsFinished (a : Animation α) : Bool := a.m_bFinished

/-- Member `SetLooping` (line 58): `m_bLoop = _loop`. -/
def SetLooping (a : Animation α) (_loop : Bool) : Animation α :=
  { a with m_bLoop := _loop }

/-- Member `SetInReverse` (line 65): `m_bReversed = _reverse`. -/
def SetInReverse (a : Animation α) (_reverse : Bool) : Animation α :=
  { a with m_bReversed := _reverse }

/-- Member `Start` (lines 72-76). -/
def Start (a : Animation α) (_currentTime : ℚ) : Animation α :=
  { a with m_startTime := _currentTime, m_bFinished := false }

/-- Member `Stop` (lines 81-85). -/
def Stop (a : Animation α) : Animation α :=
  { a with m_startTime := -1, m_bFinished := true }

/-- The test `temp < m_frames.size()` of line 114.  `temp` is an `int` and the
size a `std::size_t`, so `temp` is converted to unsigned before the
comparison: a negative `temp` becomes a value above every vector size and the
test fails; for `temp ≥ 0` it is the ordinary comparison. -/
def intLtSize (temp : Int) (size : Nat) : Bool := decide (0 ≤ temp ∧ temp < (size : Int))

/-- The access `*m_frames[pos]`: the frame stored at `pos`, if there is one. -/
def frameAt (frames : List α) (pos : Nat) : Except AnimError α :=
  match frames[pos]? with
  | some f => .ok f
  | none => .error (.outOfRange pos)

/-- The access `*m_frames.front()` on a non-empty vector. -/
def front (frames : List α) : Except AnimError α := frameAt frames 0

/-- The access `*m_frames.back()` on a non-empty vector. -/
def back (frames : List α) : Except AnimError α := frameAt frames (frames.length - 1)

/-- Line 109: `float elapsedTime = _currentTime - m_startTime`. -/
def elapsedTime (a : Animation α) (_currentTime : ℚ) : Option ℚ :=
  f32Sub _currentTime a.m_startTime

/-- Line 111: `int temp = m_frames.size() * elapsedTime / m_maxDuration`.  The
size is converted to `float`, the product and then the quotient are taken in
binary32, and the quotient is converted to `int`. -/
def temp (a : Animation α) (_currentTime : ℚ) : Int :=
  f32ToInt (f32Div (f32Mul (f32OfNat a.m_frames.length) (a.elapsedTime _currentTime))
    a.m_maxDuration)

/-- Member `GetCurrentFrame` (lines 97-135): the selected frame (or the way in
which no frame is obtained) and the animation after the call. -/
def GetCurrentFrame (a : Animation α) (_currentTime : ℚ) :
    Except AnimError α × Animation α :=
  -- Ensure there are frames in the animation
  if a.m_frames.isEmpty then
    (.error .emptyAnimation, a)
  -- If the animation has started
  else if 0 < a.m_startTime then
    -- Calculate elapsed time since the animation started,
    -- determine the current frame based on elapsed time
    let temp : Int := a.temp _currentTime
    -- If the current frame is within the range of frames
    if intLtSize temp a.m_frames.length then
      (if a.m_bReversed then frameAt a.m_frames (a.m_frames.length - temp.toNat)
        else frameAt a.m_frames temp.toNat, a)
    -- If the animation has reached the end, if the animation is looping
    else if a.m_bLoop then
      -- Restart the animation
      (if a.m_bReversed then back a.m_frames else front a.m_frames,
        { a with m_startTime := _currentTime })
    else
      -- Else, mark the animation as finished and return the last frame
      (back a.m_frames, a.Stop)
  else
    (front a.m_frames, a)

/-- A caller that invokes `GetCurrentFrame` once for each time of `times`, in
order, on the same animation object: the result of every call paired with the
animation right after that call. -/
def callTrace (a : Animation α) : List ℚ → List (Except AnimError α × Animation α)
  | [] => []
  | t :: ts => a.GetCurrentFrame t :: callTrace (a.GetCurrentFrame t).2 ts

/-- The condition under which `GetCurrentFrame` reaches the `else` of line 119
("the animation has reached the end"): there are frames, the test
`m_startTime > 0` of line 106 holds and the range test of line 114 fails. -/
def reachesEnd (a : Animation α) (_currentTime : ℚ) : Bool :=
  !a.m_frames.isEmpty && decide (0 < a.m_startTime) &&
    !intLtSize (a.temp _currentTime) a.m_frames.length

/-- Whether the index computation of lines 109-111 involves no rounding: the
size, the elapsed time, the product and the quotient are binary32 values. -/
def exactQuotient (a : Animation α) (_currentTime : ℚ) : Bool :=
  isF32 (a.m_frames.length : ℚ) && isF32 (_currentTime - a.m_startTime) &&
    isF32 ((a.m_frames.length : ℚ) * (_currentTime - a.m_startTime)) &&
    isF32 ((a.m_frames.length : ℚ) * (_currentTime - a.m_startTime) / a.m_maxDuration)

/-- One call of a public member function that can change an `Animation`. -/
inductive Call (α : Type) where
  | addFrame (_frame : α) : Call α
  | setLooping (_loop : Bool) : Call α
  | setInReverse (_reverse : Bool) : Call α
  | start (_currentTime : ℚ) : Call α
  | stop : Call α
  | getCurrentFrame (_currentTime : ℚ) : Call α

/-- The animation after one call (the value returned by `GetCurrentFrame`, or
its exception, is dropped: the caller goes on with the same object). -/
def applyCall (a : Animation α) : Call α → Animation α
  | .addFrame f => a.AddFrame f
  | .setLooping b => a.SetLooping b
  | .setInReverse b => a.SetInReverse b
  | .start t => a.Start t
  | .stop => a.Stop
  | .getCurrentFrame t => (a.GetCurrentFrame t).2

/-- The animation after a sequence of calls, made in order. -/
def applyCalls (a : Animation α) : List (Call α) → Animation α
  | [] => a
  | c :: cs => applyCalls (a.applyCall c) cs

end Animation

/-- A sample animation used to instantiate the statements below: duration
`d`, frames `10, 20, 30, 40` added in this order, then started at time `t0`. -/
def fourFrames (loop : Bool) (d t0 : ℚ) : Animation Nat :=
  (((((Animation.construct Nat d loop).AddFrame 10).AddFrame 20).AddFrame 30).AddFrame 40).Start t0

/-- Ways in which a query of `SAnimationManager` yields no value. -/
inductive ManagerError where
  /-- the exception `std::runtime_error("Animation not found: " + _animName)` -/
  | animationNotFound (_animName : String) : ManagerError
  /-- a failure of the delegated `Animation::GetCurrentFrame` -/
  | animation (e : AnimError) : ManagerError
  deriving DecidableEq, Repr

/-- State of the singleton `SAnimationManager` (AnimationManager.h, line 15):
the map `m_animations` from names to the owned animation objects, as a lookup
function (`none` for a name with no entry).  The member `m_clock` is an
external time source: every operation that reads it takes the reading
`getElapsedTime().asSeconds()` as its argument `now`. -/
structure SAnimationManager (α : Type) where
  /-- Map of animations -/
  m_animations : String → Option (Animation α)

namespace SAnimationManager

variable {α : Type}

/-- A registry without entries (the default-constructed singleton). -/
def empty (α : Type) : SAnimationManager α := { m_animations := fun _ => none }

/-- Static member `AddAnimation` (AnimationManager.cpp, lines 20-23):
`m_animations[_animName] = new Animation(_anim)`. -/
def AddAnimation (m : SAnimationManager α) (_animName : String) (_anim : Animation α) :
    SAnimationManager α :=
  { m with m_animations := Function.update m.m_animations _animName (some _anim) }

/-- Static member `RemoveAnimation` (lines 25-33). -/
def RemoveAnimation (m : SAnimationManager α) (_animName : String) : SAnimationManager α :=
  match m.m_animations _animName with
  | some _ => { m with m_animations := Function.update m.m_animations _animName none }
  | none => m

/-- Static member `GetAnimation` (lines 35-43): the stored animation, or `none`
for the null pointer. -/
def GetAnimation (m : SAnimationManager α) (_animName : String) : Option (Animation α) :=
  m.m_animations _animName

/-- Static member `StartAnimation` (lines 45-53). -/
def StartAnimation (m : SAnimationManager α) (now : ℚ) (_animName : String) :
    SAnimationManager α :=
  match m.GetAnimation _animName with
  | some anim =>
    { m with m_animations :=
        Function.update m.m_animations _animName (some ((anim.SetInReverse false).Start now)) }
  | none => m

/-- Static member `StartAnimationInReverse` (lines 55-63). -/
def StartAnimationInReverse (m : SAnimationManager α) (now : ℚ) (_animName : String) :
    SAnimationManager α :=
  match m.GetAnimation _animName with
  | some anim =>
    { m with m_animations :=
        Function.update m.m_animations _animName (some ((anim.SetInReverse true).Start now)) }
  | none => m

/-- Static member `StopAnimation` (lines 65-72). -/
def StopAnimation (m : SAnimationManager α) (_animName : String) : SAnimationManager α :=
  match m.GetAnimation _animName with
  | some anim => { m with m_animations := Function.update m.m_animations _animName (some anim.Stop) }
  | none => m

/-- Static member `GetCurrentFrame` (lines 74-82): the call is made on the
stored object, so the animation after the call is the one kept in the map. -/
def GetCurrentFrame (m : SAnimationManager α) (now : ℚ) (_animName : String) :
    Except ManagerError α × SAnimationManager α :=
  match m.GetAnimation _animName with
  | some anim =>
    ((anim.GetCurrentFrame now).1.mapError ManagerError.animation,
      { m with m_animations :=
          Function.update m.m_animations _animName (some (anim.GetCurrentFrame now).2) })
  | none => (.error (.animationNotFound _animName), m)

/-- Static member `IsAnimationFinished` (lines 84-92). -/
def IsAnimationFinished (m : SAnimationManager α) (_animName : String) :
    Except ManagerError Bool :=
  match m.GetAnimation _animName with
  | some anim => .ok anim.IsFinished
  | none => .error (.animationNotFound _animName)

/-- Static member `HasAnimationStarted` (lines 94-102). -/
def HasAnimationStarted (m : SAnimationManager α) (_animName : String) :
    Except ManagerError Bool :=
  match m.GetAnimation _animName with
  | some anim => .ok anim.hasStarted
  | none => .error (.animationNotFound _animName)

end SAnimationManager

/-! ## Facts about binary32 rounding -/

theorem roundHalfEven_intCast (m : Int) : roundHalfEven (m : ℚ) = m := by
  simp [roundHalfEven]

theorem floor_le_roundHalfEven (x : ℚ) : ⌊x⌋ ≤ roundHalfEven x := by
  unfold roundHalfEven
  split_ifs <;> omega

theorem roundHalfEven_le_ceil (x : ℚ) : roundHalfEven x ≤ ⌈x⌉ := by
  unfold roundHalfEven
  by_cases hx : x - ⌊x⌋ < 1 / 2
  · simp only [hx, if_true]
    exact Int.floor_le_ceil x
  · have hlt : (⌊x⌋ : ℚ) < x := by linarith
    have : ⌊x⌋ + 1 ≤ ⌈x⌉ := by
      have := Int.lt_ceil.mpr hlt
      omega
    simp only [hx, if_false]
    split_ifs <;> omega

theorem f32Exponent_eq {q : ℚ} {e : Int} (h1 : (2 : ℚ) ^ e ≤ |q|) (h2 : |q| < 2 ^ (e + 1))
    (he : -126 ≤ e) : f32Exponent q = e := by
  have hpos : 0 < |q| := lt_of_lt_of_le (by positivity) h1
  have hlog : Int.log 2 |q| = e := by
    apply le_antisymm
    · have := (Int.lt_zpow_iff_log_lt (b := 2) (by norm_num) hpos).mp (by exact_mod_cast h2)
      omega
    · exact (Int.zpow_le_iff_le_log (b := 2) (by norm_num) hpos).mp (by exact_mod_cast h1)
  simp [f32Exponent, hlog, he]

theorem f32Round_zero : f32Round 0 = some 0 := by
  simp [f32Round, roundHalfEven]

/-- Evaluation of a rounding in the normal range: with `2 ^ e ≤ |q| < 2 ^ (e + 1)`
the result is the multiple `m * 2 ^ (e - 23)` for the integer `m` nearest to
`q / 2 ^ (e - 23)`. -/
theorem f32Round_eq {q : ℚ} (e m : Int) (h1 : (2 : ℚ) ^ e ≤ |q|) (h2 : |q| < 2 ^ (e + 1))
    (he : -126 ≤ e) (hm : roundHalfEven (q / 2 ^ (e - 23)) = m)
    (hfin : |(m : ℚ) * 2 ^ (e - 23)| < 2 ^ 128) :
    f32Round q = some ((m : ℚ) * 2 ^ (e - 23)) := by
  simp only [f32Round, f32Exponent_eq h1 h2 he, hm, hfin, if_true]

theorem f32Exponent_sub_le {m k : Int} (hm0 : m ≠ 0) (hm : |m| < 2 ^ 24) (hk : -149 ≤ k) :
    f32Exponent ((m : ℚ) * 2 ^ k) - 23 ≤ k := by
  have hpow : (0 : ℚ) < 2 ^ k := by positivity
  have habs : |(m : ℚ) * 2 ^ k| = |(m : ℚ)| * 2 ^ k := by
    rw [abs_mul, abs_of_pos hpow]
  have hmq : |(m : ℚ)| < 2 ^ 24 := by exact_mod_cast hm
  have hpos : 0 < |(m : ℚ) * 2 ^ k| := by
    rw [habs]
    have : (0 : ℚ) < |(m : ℚ)| := abs_pos.mpr (by exact_mod_cast hm0)
    positivity
  have hlt : |(m : ℚ) * 2 ^ k| < ((2 : ℕ) : ℚ) ^ (24 + k) := by
    rw [habs, zpow_add₀ (by norm_num)]
    have : ((2 : ℕ) : ℚ) ^ (24 : Int) = 2 ^ 24 := by norm_num
    rw [this]
    have h2 : ((2 : ℕ) : ℚ) ^ k = 2 ^ k := by norm_num
    rw [h2]
    exact mul_lt_mul_of_pos_right hmq hpow
  have hlog := (Int.lt_zpow_iff_log_lt (b := 2) (by norm_num) hpos).mp hlt
  unfold f32Exponent
  omega

/-- A value `m * 2 ^ k` with a 24-bit `m` and an exponent in the binary32 range
is a binary32 value: rounding leaves it unchanged. -/
theorem f32Round_dyadic (m k : Int) (hm : |m| < 2 ^ 24) (hk : -149 ≤ k) (hk2 : k ≤ 104) :
    f32Round ((m : ℚ) * 2 ^ k) = some ((m : ℚ) * 2 ^ k) := by
  by_cases hm0 : m = 0
  · simp [hm0, f32Round_zero]
  have hle := f32Exponent_sub_le hm0 hm hk
  obtain ⟨j, hj⟩ := Int.eq_ofNat_of_zero_le (sub_nonneg.mpr hle)
  have hquot : (m : ℚ) * 2 ^ k / 2 ^ (f32Exponent ((m : ℚ) * 2 ^ k) - 23) =
      ((m * 2 ^ j : Int) : ℚ) := by
    rw [mul_div_assoc, ← zpow_sub₀ (by norm_num), hj]
    push_cast
    rw [zpow_natCast]
  have hback : ((m * 2 ^ j : Int) : ℚ) * 2 ^ (f32Exponent ((m : ℚ) * 2 ^ k) - 23) =
      (m : ℚ) * 2 ^ k := by
    rw [← hquot]
    field_simp
  have hfin : |(m : ℚ) * 2 ^ k| < 2 ^ 128 := by
    have hpow : (0 : ℚ) < 2 ^ k := by positivity
    rw [abs_mul, abs_of_pos hpow]
    have hmq : |(m : ℚ)| < 2 ^ 24 := by exact_mod_cast hm
    have hk3 : (2 : ℚ) ^ k ≤ 2 ^ (104 : Int) := zpow_le_zpow_right₀ (by norm_num) hk2
    have h104 : (2 : ℚ) ^ (104 : Int) = 2 ^ 104 := by norm_num
    calc |(m : ℚ)| * 2 ^ k < 2 ^ 24 * 2 ^ k := mul_lt_mul_of_pos_right hmq hpow
      _ ≤ 2 ^ 24 * 2 ^ 104 := by rw [← h104]; exact mul_le_mul_of_nonneg_left hk3 (by norm_num)
      _ = 2 ^ 128 := by norm_num
  unfold f32Round
  simp only [hquot, roundHalfEven_intCast, hback, hfin, if_true]

theorem abs_lt_zpow_f32Exponent (q : ℚ) : |q| < 2 ^ (f32Exponent q + 1) := by
  have h := Int.lt_zpow_succ_log_self (b := 2) (by norm_num) |q|
  have h2 : (((2 : ℕ) : ℚ)) = 2 := by norm_num
  rw [h2] at h
  refine lt_of_lt_of_le h (zpow_le_zpow_right₀ (by norm_num) ?_)
  unfold f32Exponent
  omega

theorem abs_roundHalfEven_le (x : ℚ) (n : Int) (h : |x| ≤ n) : |roundHalfEven x| ≤ n := by
  have h1 : x ≤ n := (abs_le.mp h).2
  have h2 : -(n : ℚ) ≤ x := (abs_le.mp h).1
  have hc : ⌈x⌉ ≤ n := Int.ceil_le.mpr h1
  have hf : -n ≤ ⌊x⌋ := Int.le_floor.mpr (by exact_mod_cast h2)
  have := floor_le_roundHalfEven x
  have := roundHalfEven_le_ceil x
  rw [abs_le]
  constructor <;> omega

/-- A result of magnitude below `2 ^ 127` does not overflow. -/
theorem f32Round_isSome (q : ℚ) (h : |q| < 2 ^ 127) : ∃ v : ℚ, f32Round q = some v := by
  have hc : (0 : ℚ) < 2 ^ (f32Exponent q - 23) := by positivity
  have he : f32Exponent q ≤ 126 := by
    unfold f32Exponent
    by_cases hq : q = 0
    · simp [hq]
    have hpos : 0 < |q| := abs_pos.mpr hq
    have hlt : |q| < ((2 : ℕ) : ℚ) ^ (127 : Int) := by
      have : ((2 : ℕ) : ℚ) ^ (127 : Int) = 2 ^ 127 := by norm_num
      rw [this]
      exact h
    have := (Int.lt_zpow_iff_log_lt (b := 2) (by norm_num) hpos).mp hlt
    omega
  have hx : |q / 2 ^ (f32Exponent q - 23)| ≤ ((2 ^ 24 : Int) : ℚ) := by
    rw [abs_div, abs_of_pos hc, div_le_iff₀ hc]
    have h1 := abs_lt_zpow_f32Exponent q
    have h2 : ((2 ^ 24 : Int) : ℚ) * 2 ^ (f32Exponent q - 23) = 2 ^ (f32Exponent q + 1) := by
      have : ((2 ^ 24 : Int) : ℚ) = 2 ^ (24 : Int) := by norm_num
      rw [this, ← zpow_add₀ (by norm_num)]
      congr 1
      ring
    rw [h2]
    exact h1.le
  have hm := abs_roundHalfEven_le _ _ hx
  have hmq : |((roundHalfEven (q / 2 ^ (f32Exponent q - 23)) : Int) : ℚ)| ≤ 2 ^ 24 := by
    exact_mod_cast hm
  have hr : |((roundHalfEven (q / 2 ^ (f32Exponent q - 23)) : Int) : ℚ) *
      2 ^ (f32Exponent q - 23)| < 2 ^ 128 := by
    rw [abs_mul, abs_of_pos hc]
    have h3 : (2 : ℚ) ^ (f32Exponent q - 23) ≤ 2 ^ (103 : Int) :=
      zpow_le_zpow_right₀ (by norm_num) (by omega)
    calc _ ≤ (2 : ℚ) ^ 24 * 2 ^ (103 : Int) := mul_le_mul hmq h3 hc.le (by norm_num)
      _ < 2 ^ 128 := by norm_num
  refine ⟨((roundHalfEven (q / 2 ^ (f32Exponent q - 23)) : Int) : ℚ) *
      2 ^ (f32Exponent q - 23), ?_⟩
  simp only [f32Round, hr, if_true]

/-- A result of magnitude `2 ^ 128` or more overflows. -/
theorem f32Round_overflow (q : ℚ) (h : 2 ^ 128 ≤ |q|) : f32Round q = none := by
  have hpos : 0 < |q| := lt_of_lt_of_le (by norm_num) h
  have hlog : 128 ≤ Int.log 2 |q| := by
    refine (Int.zpow_le_iff_le_log (b := 2) (by norm_num) hpos).mp ?_
    have : ((2 : ℕ) : ℚ) ^ (128 : Int) = 2 ^ 128 := by norm_num
    rw [this]
    exact h
  have he : f32Exponent q = Int.log 2 |q| := by
    unfold f32Exponent
    omega
  have hc : (0 : ℚ) < 2 ^ (f32Exponent q - 23) := by positivity
  have hle : (2 : ℚ) ^ (f32Exponent q) ≤ |q| := by
    rw [he]
    have := Int.zpow_log_le_self (b := 2) (by norm_num) hpos
    simpa using this
  have hx : ((2 ^ 23 : Int) : ℚ) ≤ |q / 2 ^ (f32Exponent q - 23)| := by
    rw [abs_div, abs_of_pos hc, le_div_iff₀ hc]
    have h2 : ((2 ^ 23 : Int) : ℚ) * 2 ^ (f32Exponent q - 23) = 2 ^ (f32Exponent q) := by
      have : ((2 ^ 23 : Int) : ℚ) = 2 ^ (23 : Int) := by norm_num
      rw [this, ← zpow_add₀ (by norm_num)]
      congr 1
      ring
    rw [h2]
    exact hle
  have hm : (2 ^ 23 : Int) ≤ |roundHalfEven (q / 2 ^ (f32Exponent q - 23))| := by
    rcases le_abs.mp hx with hx1 | hx1
    · have := Int.le_floor.mpr hx1
      have := floor_le_roundHalfEven (q / 2 ^ (f32Exponent q - 23))
      exact le_trans (by omega) (le_abs_self _)
    · have hx2 : q / 2 ^ (f32Exponent q - 23) ≤ ((-(2 ^ 23) : Int) : ℚ) := by
        push_cast at hx1 ⊢
        linarith
      have := Int.ceil_le.mpr hx2
      have := roundHalfEven_le_ceil (q / 2 ^ (f32Exponent q - 23))
      exact le_trans (by omega) (neg_le_abs _)
  have hmq : (2 : ℚ) ^ 23 ≤ |((roundHalfEven (q / 2 ^ (f32Exponent q - 23)) : Int) : ℚ)| := by
    exact_mod_cast hm
  have hr : ¬ |((roundHalfEven (q / 2 ^ (f32Exponent q - 23)) : Int) : ℚ) *
      2 ^ (f32Exponent q - 23)| < 2 ^ 128 := by
    rw [not_lt, abs_mul, abs_of_pos hc]
    have h3 : (2 : ℚ) ^ (105 : Int) ≤ 2 ^ (f32Exponent q - 23) :=
      zpow_le_zpow_right₀ (by norm_num) (by omega)
    calc (2 : ℚ) ^ 128 = 2 ^ 23 * 2 ^ (105 : Int) := by norm_num
      _ ≤ _ := mul_le_mul hmq h3 (by positivity) (abs_nonneg _)
  simp only [f32Round, hr, if_false]

theorem roundHalfEven_of_near (x : ℚ) (m : Int) (h1 : (m : ℚ) - 1 / 2 < x)
    (h2 : x < (m : ℚ) + 1 / 2) : roundHalfEven x = m := by
  unfold roundHalfEven
  by_cases hx : (m : ℚ) ≤ x
  · have hf : ⌊x⌋ = m := Int.floor_eq_iff.mpr ⟨hx, by linarith⟩
    have hlt : x - (m : ℚ) < 1 / 2 := by linarith
    rw [hf]
    simp only [hlt, if_true]
  · have hx2 : x < m := not_le.mp hx
    have hf : ⌊x⌋ = m - 1 := Int.floor_eq_iff.mpr ⟨by push_cast; linarith, by push_cast; linarith⟩
    have h3 : ¬ (x - ((m - 1 : Int) : ℚ) < 1 / 2) := by push_cast; linarith
    have h4 : 1 / 2 < x - ((m - 1 : Int) : ℚ) := by push_cast; linarith
    rw [hf]
    simp only [h3, h4, if_false, if_true]
    omega

/-- An integer of magnitude below `2 ^ 24` is a binary32 value. -/
theorem f32Round_int (n : Int) (h : |n| < 2 ^ 24) : f32Round (n : ℚ) = some (n : ℚ) := by
  simpa using f32Round_dyadic n 0 h (by norm_num) (by norm_num)

theorem isF32_iff (q : ℚ) : isF32 q = true ↔ f32Round q = some q := by
  simp [isF32]

theorem f32ToInt_none : f32ToInt none = -2 ^ 31 := rfl

/-- Conversion of a non-negative finite value whose integer part fits an
`int`. -/
theorem f32ToInt_of_nonneg {q : ℚ} (h0 : 0 ≤ q) (h : ⌊q⌋ < 2 ^ 31) :
    f32ToInt (some q) = ⌊q⌋ := by
  have hf : 0 ≤ ⌊q⌋ := Int.floor_nonneg.mpr h0
  have hlow : (-2 ^ 31 : Int) ≤ ⌊q⌋ := le_trans (by norm_num) hf
  simp only [f32ToInt, truncToInt, h0, if_true, h, hlow, and_self]

/-- A finite value that is at least `n` converts to an `int` that is at least
`n` or negative. -/
theorem f32ToInt_ge_or_neg {q : ℚ} {n : Nat} (h : (n : ℚ) ≤ q) :
    (n : Int) ≤ f32ToInt (some q) ∨ f32ToInt (some q) < 0 := by
  have h0 : (0 : ℚ) ≤ q := le_trans (by positivity) h
  have hfl : (n : Int) ≤ ⌊q⌋ := Int.le_floor.mpr (by exact_mod_cast h)
  simp only [f32ToInt, truncToInt, h0, if_true]
  split_ifs
  · exact Or.inl hfl
  · exact Or.inr (by norm_num)

/-! ## Auxiliary facts about the embedding -/

namespace Animation

variable {α : Type}

theorem frameAt_of_lt (frames : List α) (pos : Nat) (h : pos < frames.length) :
    frameAt frames pos = .ok (frames.get ⟨pos, h⟩) := by
  simp [frameAt, List.getElem?_eq_getElem h]

theorem frameAt_of_le (frames : List α) (pos : Nat) (h : frames.length ≤ pos) :
    frameAt frames pos = .error (.outOfRange pos) := by
  simp [frameAt, List.getElem?_eq_none h]

theorem isEmpty_eq_false_of_pos {frames : List α} (h : 1 ≤ frames.length) :
    frames.isEmpty = false := by
  cases frames with
  | nil => simp at h
  | cons x xs => rfl

/-- The outcome of a call on a running animation whose `temp` passes the range
test: the frame access, the animation unchanged. -/
theorem getCurrentFrame_in_range (a : Animation α) (now : ℚ)
    (hN : 1 ≤ a.m_frames.length) (ht0 : 0 < a.m_startTime)
    (htest : intLtSize (a.temp now) a.m_frames.length = true) :
    a.GetCurrentFrame now =
      (if a.m_bReversed then frameAt a.m_frames (a.m_frames.length - (a.temp now).toNat)
        else frameAt a.m_frames (a.temp now).toNat, a) := by
  simp [GetCurrentFrame, isEmpty_eq_false_of_pos hN, ht0, htest]

/-- The outcome of a call on a running, non-looping animation whose `temp`
fails the range test. -/
theorem getCurrentFrame_eq_stop (a : Animation α) (now : ℚ)
    (hloop : a.m_bLoop = false) (hN : 1 ≤ a.m_frames.length) (ht0 : 0 < a.m_startTime)
    (htest : intLtSize (a.temp now) a.m_frames.length = false) :
    a.GetCurrentFrame now = (back a.m_frames, a.Stop) := by
  simp [GetCurrentFrame, isEmpty_eq_false_of_pos hN, ht0, htest, hloop]

/-- The outcome of a call on a running, looping animation whose `temp` fails
the range test. -/
theorem getCurrentFrame_eq_wrap (a : Animation α) (now : ℚ)
    (hloop : a.m_bLoop = true) (hN : 1 ≤ a.m_frames.length) (ht0 : 0 < a.m_startTime)
    (htest : intLtSize (a.temp now) a.m_frames.length = false) :
    a.GetCurrentFrame now =
      (if a.m_bReversed then back a.m_frames else front a.m_frames,
        { a with m_startTime := now }) := by
  simp [GetCurrentFrame, isEmpty_eq_false_of_pos hN, ht0, htest, hloop]

/-- The outcome of a call when the test `m_startTime > 0` fails on an animation
with frames: the first frame, the animation unchanged. -/
theorem getCurrentFrame_eq_front (a : Animation α) (now : ℚ)
    (hN : 1 ≤ a.m_frames.length) (hns : ¬ 0 < a.m_startTime) :
    a.GetCurrentFrame now = (.ok (a.m_frames.get ⟨0, hN⟩), a) := by
  simp only [GetCurrentFrame, isEmpty_eq_false_of_pos hN, hns, if_false, front]
  rw [frameAt_of_lt a.m_frames 0 hN]
  simp

/-- The animation after a call, by the branch taken: restarted at `now` (end
branch, looping), stopped (end branch, not looping), unchanged (otherwise). -/
theorem getCurrentFrame_state_cases (a : Animation α) (now : ℚ) :
    (a.reachesEnd now = true → a.m_bLoop = true →
        (a.GetCurrentFrame now).2 = { a with m_startTime := now }) ∧
      (a.reachesEnd now = true → a.m_bLoop = false → (a.GetCurrentFrame now).2 = a.Stop) ∧
      (a.reachesEnd now = false → (a.GetCurrentFrame now).2 = a) := by
  cases hE : a.m_frames.isEmpty
  · by_cases h0 : 0 < a.m_startTime
    · cases hT : intLtSize (a.temp now) a.m_frames.length
      · cases hL : a.m_bLoop <;> simp [GetCurrentFrame, reachesEnd, hE, h0, hT, hL]
      · simp [GetCurrentFrame, reachesEnd, hE, h0, hT]
    · simp [GetCurrentFrame, reachesEnd, hE, h0]
  · simp [GetCurrentFrame, reachesEnd, hE]

/-- The value of `temp` when no operation of the index computation rounds: the
conversion of the exact quotient. -/
theorem temp_of_exactQuotient (a : Animation α) (now : ℚ)
    (hexact : a.exactQuotient now = true) (hD : a.m_maxDuration ≠ 0) :
    a.temp now =
      f32ToInt (some ((a.m_frames.length : ℚ) * (now - a.m_startTime) / a.m_maxDuration)) := by
  simp only [exactQuotient, Bool.and_eq_true, isF32_iff] at hexact
  obtain ⟨⟨⟨hn, he⟩, hp⟩, hq⟩ := hexact
  simp only [temp, elapsedTime, f32Sub, f32OfNat, hn, he, f32Mul, hp, f32Div, hD, if_false, hq]

/-- The value of `temp` from the results of the four binary32 operations. -/
theorem temp_eval (a : Animation α) (now : ℚ) {n e p q : ℚ}
    (hn : f32Round (a.m_frames.length : ℚ) = some n)
    (he : f32Round (now - a.m_startTime) = some e)
    (hp : f32Round (n * e) = some p) (hD : a.m_maxDuration ≠ 0)
    (hq : f32Round (p / a.m_maxDuration) = some q) :
    a.temp now = f32ToInt (some q) := by
  simp only [temp, elapsedTime, f32Sub, f32OfNat, hn, he, f32Mul, hp, f32Div, hD, if_false, hq]

/-- The range test fails on the conversion of a finite quotient that is at
least the number of frames. -/
theorem intLtSize_of_ge {q : ℚ} {n : Nat} (h : (n : ℚ) ≤ q) :
    intLtSize (f32ToInt (some q)) n = false := by
  simp only [intLtSize, decide_eq_false_iff_not]
  rcases f32ToInt_ge_or_neg h with h1 | h1 <;> omega

/-- The range test fails on `INT_MIN`. -/
theorem intLtSize_int_min (n : Nat) : intLtSize (-2 ^ 31) n = false := by
  simp [intLtSize]

end Animation

/-! ## Binary32 values of some decimal literals -/

theorem toFloat32_eq {q v : ℚ} (h : f32Round q = some v) : toFloat32 q = v := by
  simp [toFloat32, h]

/-- The value of `10.6f`. -/
theorem toFloat32_ten_six : toFloat32 10.6 = 11114906 / 2 ^ 20 := by
  refine toFloat32_eq ?_
  have h := f32Round_eq (q := 10.6) 3 11114906 (by norm_num [abs_of_pos])
    (by norm_num [abs_of_pos]) (by norm_num)
    (roundHalfEven_of_near _ _ (by norm_num) (by norm_num)) (by norm_num [abs_of_pos])
  rw [h]
  norm_num

/-! ## Values of `temp` on the sample animations -/

namespace Animation

variable {α : Type}

/-- At the start time the elapsed time, the product and the quotient are all
zero, so `temp` is 0 (for a size in the range of `std::size_t` and a non-zero
duration). -/
theorem temp_at_start (a : Animation α) (hD : a.m_maxDuration ≠ 0)
    (hsize : a.m_frames.length < 2 ^ 64) : a.temp a.m_startTime = 0 := by
  have hq : |((a.m_frames.length : Nat) : ℚ)| < 2 ^ 127 := by
    rw [abs_of_nonneg (by positivity)]
    have h1 : ((a.m_frames.length : Nat) : ℚ) < 2 ^ 64 := by exact_mod_cast hsize
    exact lt_trans h1 (by norm_num)
  obtain ⟨v, hv⟩ := f32Round_isSome _ hq
  have h := temp_eval a a.m_startTime (n := v) (e := 0) (p := 0) (q := 0) hv
    (by simp [f32Round_zero]) (by simp [f32Round_zero]) hD (by simp [f32Round_zero])
  rw [h]
  simp [f32ToInt, truncToInt]

/-- The index computation on integer data: when the size, the elapsed time `e`,
their product and the quotient `q` are integers of magnitude below `2 ^ 24`, no
operation rounds. -/
theorem exactQuotient_of_ints (a : Animation α) (now : ℚ) (e q : Int)
    (hN : a.m_frames.length < 2 ^ 24) (he : now - a.m_startTime = e) (he2 : |e| < 2 ^ 24)
    (hp : |(a.m_frames.length : Int) * e| < 2 ^ 24)
    (hq : (a.m_frames.length : ℚ) * e / a.m_maxDuration = q) (hq2 : |q| < 2 ^ 24) :
    a.exactQuotient now = true := by
  have r1 := f32Round_int (a.m_frames.length : Int) (by rw [abs_of_nonneg (by positivity)]; exact_mod_cast hN)
  have r2 := f32Round_int e he2
  have r3 := f32Round_int ((a.m_frames.length : Int) * e) hp
  have r4 := f32Round_int q hq2
  push_cast at r1 r3
  simp only [exactQuotient, Bool.and_eq_true, isF32_iff, he, hq]
  exact ⟨⟨⟨r1, r2⟩, r3⟩, r4⟩

/-- The value of `temp` on integer data. -/
theorem temp_eval_int (a : Animation α) (now : ℚ) (e q : Int)
    (hN : a.m_frames.length < 2 ^ 24) (he : now - a.m_startTime = e) (he2 : |e| < 2 ^ 24)
    (hp : |(a.m_frames.length : Int) * e| < 2 ^ 24) (hD : a.m_maxDuration ≠ 0)
    (hq : (a.m_frames.length : ℚ) * e / a.m_maxDuration = q) (hq2 : |q| < 2 ^ 24) :
    a.temp now = q := by
  rw [temp_of_exactQuotient a now (exactQuotient_of_ints a now e q hN he he2 hp hq hq2) hD,
    he, hq]
  have hlt : |q| < 2 ^ 31 := lt_trans hq2 (by norm_num)
  have hb := abs_lt.mp hlt
  simp only [f32ToInt, truncToInt, Int.floor_intCast, Int.ceil_intCast, ite_self]
  rw [if_pos ⟨by omega, by omega⟩]

end Animation
/-! ## Frame selection while the animation runs -/

namespace Animation

variable {α : Type}

end Animation
/-! ## Sequences of calls, empty and idle animations, the scenario -/

namespace Animation

variable {α : Type}

/-- One call on a running, looping, forward animation at a time not before the
start time: a frame at a valid position is returned, and the animation is
either unchanged or restarted at the time of the call. -/
theorem getCurrentFrame_looping_forward_step (a : Animation α) (t : ℚ)
    (hloop : a.m_bLoop = true) (hrev : a.m_bReversed = false)
    (hN : 1 ≤ a.m_frames.length) (ht0 : 0 < a.m_startTime) :
    (∃ (i : Nat) (hi : i < a.m_frames.length),
        (a.GetCurrentFrame t).1 = .ok (a.m_frames.get ⟨i, hi⟩)) ∧
      ((a.GetCurrentFrame t).2 = a ∨ (a.GetCurrentFrame t).2 = { a with m_startTime := t }) := by
  cases htest : intLtSize (a.temp t) a.m_frames.length with
  | true =>
    rw [getCurrentFrame_in_range a t hN ht0 htest]
    simp only [intLtSize, decide_eq_true_eq] at htest
    have hi : (a.temp t).toNat < a.m_frames.length := by omega
    refine ⟨⟨_, hi, ?_⟩, Or.inl rfl⟩
    simpa [hrev] using frameAt_of_lt a.m_frames _ hi
  | false =>
    rw [getCurrentFrame_eq_wrap a t hloop hN ht0 htest]
    refine ⟨⟨0, by omega, ?_⟩, Or.inr rfl⟩
    simpa [hrev, front] using frameAt_of_lt a.m_frames 0 (by omega)

/-- Sequences of calls in the forward direction: on a running, looping,
forward animation, every call of a sequence at non-decreasing times from the
start time on returns a frame at a valid position of the frame sequence, and
`IsFinished()` is false after every call. -/
theorem callTrace_looping_forward_valid (times : List ℚ) (a : Animation α)
    (hloop : a.m_bLoop = true) (hrev : a.m_bReversed = false) (hfin : a.m_bFinished = false)
    (hN : 1 ≤ a.m_frames.length) (ht0 : 0 < a.m_startTime)
    (hsorted : List.Chain (· ≤ ·) a.m_startTime times) :
    ∀ r ∈ callTrace a times,
      (∃ (i : Nat) (hi : i < a.m_frames.length), r.1 = .ok (a.m_frames.get ⟨i, hi⟩)) ∧
        r.2.IsFinished = false := by
  induction times generalizing a with
  | nil => intro r hr; simp [callTrace] at hr
  | cons t ts ih =>
    obtain ⟨ht, hts⟩ := List.chain_cons.mp hsorted
    obtain ⟨hframe, hstate⟩ := getCurrentFrame_looping_forward_step a t hloop hrev hN ht0
    intro r hr
    simp only [callTrace, List.mem_cons] at hr
    rcases hr with rfl | hr
    · refine ⟨hframe, ?_⟩
      rcases hstate with h | h <;> rw [IsFinished, h] <;> exact hfin
    · rcases hstate with h | h
      · rw [h] at hr
        exact ih a hloop hrev hfin hN ht0
          (hts.imp' (fun _ _ h => h) (fun c hc => le_trans ht hc)) r hr
      · rw [h] at hr
        exact ih { a with m_startTime := t } hloop hrev hfin hN (lt_of_lt_of_le ht0 ht) hts r hr

/-- C4, evaluated on a failing input.  Looping animation with four frames and
duration 2, reversed, started at time 1: the single call `GetCurrentFrame(1)`
computes `temp = 0`, passes the range test and reads `m_frames[4 - 0]`, a
position that holds no frame. -/
theorem callTrace_reversed_looping_out_of_range :
    callTrace (((fourFrames true 2 0).SetInReverse true).Start 1) [1] =
      [(.error (.outOfRange 4), ((fourFrames true 2 0).SetInReverse true).Start 1)] := by
  have htemp : (((fourFrames true 2 0).SetInReverse true).Start 1).temp 1 = 0 :=
    temp_at_start (((fourFrames true 2 0).SetInReverse true).Start 1)
      (by norm_num [fourFrames, construct, AddFrame, Start, SetInReverse]) (by decide)
  simp only [callTrace]
  rw [getCurrentFrame_in_range _ _ (by decide)
    (by norm_num [fourFrames, construct, AddFrame, Start, SetInReverse])
    (by rw [htemp]; decide), htemp]
  rfl

/-- C5. On an animation whose frame sequence is empty, whatever its other data
members and whatever the time, `GetCurrentFrame` fails with the empty-animation
error and leaves the animation unchanged. -/
theorem getCurrentFrame_empty (a : Animation α) (now : ℚ) (hempty : a.m_frames = []) :
    a.GetCurrentFrame now = (.error .emptyAnimation, a) := by
  simp [GetCurrentFrame, hempty]

/-- Witness for C5: a started, looping, reversed animation to which no frame was
added. -/
theorem getCurrentFrame_empty_witness :
    (((construct Nat 2 true).SetInReverse true).Start 1).GetCurrentFrame 5 =
      (.error .emptyAnimation, ((construct Nat 2 true).SetInReverse true).Start 1) :=
  getCurrentFrame_empty _ 5 rfl

/-- C6. On an animation with `N ≥ 1` frames that is not started (`hasStarted()`
is false, as right after construction or after `Stop()`), for every time and
either direction, `GetCurrentFrame` returns the frame at position 0 and leaves
the animation unchanged. -/
theorem getCurrentFrame_not_started (a : Animation α) (now : ℚ)
    (hN : 1 ≤ a.m_frames.length) (hns : a.hasStarted = false) :
    ∃ h0 : 0 < a.m_frames.length,
      a.GetCurrentFrame now = (.ok (a.m_frames.get ⟨0, h0⟩), a) := by
  have hneg : ¬ 0 < a.m_startTime := by
    simp only [hasStarted, decide_eq_false_iff_not, not_le] at hns
    exact not_lt.mpr (le_of_lt hns)
  refine ⟨by omega, ?_⟩
  simp only [GetCurrentFrame, isEmpty_eq_false_of_pos hN, hneg, if_false, front]
  rw [frameAt_of_lt a.m_frames 0 (by omega)]
  simp

/-- Witness for C6: a freshly constructed animation with one frame, reversed,
and a stopped animation with four frames. -/
theorem getCurrentFrame_not_started_witness :
    ((((construct Nat 2 false).AddFrame 7).SetInReverse true).GetCurrentFrame 5 =
        (.ok 7, ((construct Nat 2 false).AddFrame 7).SetInReverse true)) ∧
      ((fourFrames true 2 1).Stop.GetCurrentFrame 5 = (.ok 10, (fourFrames true 2 1).Stop)) := by
  obtain ⟨_, h₁⟩ := getCurrentFrame_not_started
    (((construct Nat 2 false).AddFrame 7).SetInReverse true) 5 (by decide)
    (by simp [hasStarted, construct, AddFrame, SetInReverse])
  obtain ⟨_, h₂⟩ := getCurrentFrame_not_started (fourFrames true 2 1).Stop 5 (by decide)
    (by simp [hasStarted, Stop])
  exact ⟨h₁, h₂⟩

/-- Four frames, duration 2, not looping, started at 1 and asked at 3: the
elapsed time is 2, the quotient 4, and the call stops the animation. -/
theorem getCurrentFrame_fourFrames_completes :
    (fourFrames false 2 1).GetCurrentFrame 3 = (.ok 40, (fourFrames false 2 1).Stop) := by
  have htemp : (fourFrames false 2 1).temp 3 = 4 := by
    have h := temp_eval_int (fourFrames false 2 1) 3 2 4 (by decide)
      (by norm_num [fourFrames, construct, AddFrame, Start]) (by norm_num)
      (by norm_num [fourFrames, construct, AddFrame, Start])
      (by norm_num [fourFrames, construct, AddFrame, Start])
      (by norm_num [fourFrames, construct, AddFrame, Start]) (by norm_num)
    simpa using h
  rw [getCurrentFrame_eq_stop _ _ rfl (by decide)
    (by norm_num [fourFrames, construct, AddFrame, Start]) (by rw [htemp]; decide)]
  rfl

/-- C7, evaluated on a failing input.  A non-looping animation with frames
`10, 20, 30, 40` is finished, either by `Stop()` or by running to completion
(the completing call returns the last frame `40`); `IsFinished()` is true, and
the next `GetCurrentFrame` returns the first frame `10`, not the last one. -/
theorem getCurrentFrame_finished_returns_first :
    ((fourFrames false 2 1).Stop.IsFinished = true ∧
        (fourFrames false 2 1).Stop.m_frames.getLast? = some 40 ∧
        ((fourFrames false 2 1).Stop.GetCurrentFrame 5).1 = .ok 10) ∧
      (((fourFrames false 2 1).GetCurrentFrame 3).1 = .ok 40 ∧
        ((fourFrames false 2 1).GetCurrentFrame 3).2.IsFinished = true ∧
        (((fourFrames false 2 1).GetCurrentFrame 3).2.GetCurrentFrame 5).1 = .ok 10) := by
  have hstopped : ((fourFrames false 2 1).Stop.GetCurrentFrame 5).1 = .ok 10 := by
    rw [getCurrentFrame_eq_front _ 5 (by decide) (by norm_num [Stop])]
    rfl
  rw [getCurrentFrame_fourFrames_completes]
  exact ⟨⟨rfl, rfl, hstopped⟩, rfl, rfl, hstopped⟩

/-- C8. From every animation state: after `Start(now)` the start time is `now`
and `IsFinished()` is false; after `Stop()` `IsFinished()` is true and
`hasStarted()` is false; neither call changes the frames, the duration, the
loop flag or the reversed flag. -/
theorem start_stop_effect (a : Animation α) (now : ℚ) :
    ((a.Start now).m_startTime = now ∧ (a.Start now).IsFinished = false ∧
        (a.Start now).m_frames = a.m_frames ∧ (a.Start now).m_maxDuration = a.m_maxDuration ∧
        (a.Start now).m_bLoop = a.m_bLoop ∧ (a.Start now).m_bReversed = a.m_bReversed) ∧
      (a.Stop.IsFinished = true ∧ a.Stop.hasStarted = false ∧
        a.Stop.m_frames = a.m_frames ∧ a.Stop.m_maxDuration = a.m_maxDuration ∧
        a.Stop.m_bLoop = a.m_bLoop ∧ a.Stop.m_bReversed = a.m_bReversed) := by
  simp [Start, Stop, IsFinished, hasStarted]

end Animation
namespace Animation

variable {α : Type}

/-- The values of `temp` on an animation with four frames, duration 2 and start
time 10, at the times 10, 10.6 (also as the binary32 value `10.6f`) and 12. -/
theorem temp_scenario (a : Animation α) (hN : a.m_frames.length = 4)
    (hD : a.m_maxDuration = 2) (ht0 : a.m_startTime = 10) :
    a.temp 10 = 0 ∧ a.temp 10.6 = 1 ∧ a.temp (toFloat32 10.6) = 1 ∧ a.temp 12 = 4 := by
  have hn : f32Round (a.m_frames.length : ℚ) = some 4 := by
    rw [hN]
    simpa using f32Round_int 4 (by norm_num)
  have hfl : ∀ q : ℚ, 1 ≤ q → q < 2 → f32ToInt (some q) = 1 := by
    intro q h1 h2
    have hfloor : ⌊q⌋ = 1 := Int.floor_eq_iff.mpr ⟨by exact_mod_cast h1, by norm_num; linarith⟩
    rw [f32ToInt_of_nonneg (by linarith) (by rw [hfloor]; norm_num), hfloor]
  refine ⟨?_, ?_, ?_, ?_⟩
  · have h := temp_eval_int a 10 0 0 (by omega) (by rw [ht0]; norm_num) (by norm_num)
      (by norm_num) (by rw [hD]; norm_num) (by norm_num) (by norm_num)
    simpa using h
  · have he : f32Round ((10.6 : ℚ) - a.m_startTime) = some (10066330 / 2 ^ 24) := by
      rw [ht0]
      have h := f32Round_eq (q := (10.6 : ℚ) - 10) (-1) 10066330 (by norm_num [abs_of_pos])
        (by norm_num [abs_of_pos]) (by norm_num)
        (roundHalfEven_of_near _ _ (by norm_num) (by norm_num)) (by norm_num [abs_of_pos])
      rw [h]
      norm_num
    have hp : f32Round ((4 : ℚ) * (10066330 / 2 ^ 24)) = some (10066330 / 2 ^ 22) := by
      have h := f32Round_dyadic 10066330 (-22) (by norm_num) (by norm_num) (by norm_num)
      norm_num at h ⊢
      exact h
    have hq : f32Round ((10066330 : ℚ) / 2 ^ 22 / a.m_maxDuration) =
        some (10066330 / 2 ^ 23) := by
      rw [hD]
      have h := f32Round_dyadic 10066330 (-23) (by norm_num) (by norm_num) (by norm_num)
      norm_num at h ⊢
      exact h
    rw [temp_eval a 10.6 hn he hp (by rw [hD]; norm_num) hq]
    exact hfl _ (by norm_num) (by norm_num)
  · have he : f32Round (toFloat32 10.6 - a.m_startTime) = some (629146 / 2 ^ 20) := by
      rw [ht0, toFloat32_ten_six]
      have h := f32Round_dyadic 629146 (-20) (by norm_num) (by norm_num) (by norm_num)
      norm_num at h ⊢
      exact h
    have hp : f32Round ((4 : ℚ) * (629146 / 2 ^ 20)) = some (629146 / 2 ^ 18) := by
      have h := f32Round_dyadic 629146 (-18) (by norm_num) (by norm_num) (by norm_num)
      norm_num at h ⊢
      exact h
    have hq : f32Round ((629146 : ℚ) / 2 ^ 18 / a.m_maxDuration) = some (629146 / 2 ^ 19) := by
      rw [hD]
      have h := f32Round_dyadic 629146 (-19) (by norm_num) (by norm_num) (by norm_num)
      norm_num at h ⊢
      exact h
    rw [temp_eval a _ hn he hp (by rw [hD]; norm_num) hq]
    exact hfl _ (by norm_num) (by norm_num)
  · have h := temp_eval_int a 12 2 4 (by omega) (by rw [ht0]; norm_num) (by norm_num)
      (by rw [hN]; norm_num) (by rw [hD]; norm_num) (by rw [hN, hD]; norm_num) (by norm_num)
    simpa using h

/-- C9. Scenario: looping forward animation with frames `f0 f1 f2 f3` and duration
2, started at 10.  The calls at 10, 10.6 and 12, in this order, return `f0`
(state unchanged), `f1` (state unchanged) and `f0`, the last one leaving the
start time at 12 and the animation not finished.  The same holds when the
second time is the binary32 value `10.6f` that the code receives. -/
theorem scenario_four_frames_looping (f0 f1 f2 f3 : α) :
    callTrace (((((construct α 2 true).AddFrame f0).AddFrame f1).AddFrame f2).AddFrame f3
        |>.Start 10) [10, 10.6, 12] =
      [(.ok f0, { m_startTime := 10, m_maxDuration := 2, m_frames := [f0, f1, f2, f3],
                  m_bLoop := true, m_bFinished := false, m_bReversed := false }),
       (.ok f1, { m_startTime := 10, m_maxDuration := 2, m_frames := [f0, f1, f2, f3],
                  m_bLoop := true, m_bFinished := false, m_bReversed := false }),
       (.ok f0, { m_startTime := 12, m_maxDuration := 2, m_frames := [f0, f1, f2, f3],
                  m_bLoop := true, m_bFinished := false, m_bReversed := false })] ∧
    callTrace (((((construct α 2 true).AddFrame f0).AddFrame f1).AddFrame f2).AddFrame f3
        |>.Start 10) [10, toFloat32 10.6, 12] =
      [(.ok f0, { m_startTime := 10, m_maxDuration := 2, m_frames := [f0, f1, f2, f3],
                  m_bLoop := true, m_bFinished := false, m_bReversed := false }),
       (.ok f1, { m_startTime := 10, m_maxDuration := 2, m_frames := [f0, f1, f2, f3],
                  m_bLoop := true, m_bFinished := false, m_bReversed := false }),
       (.ok f0, { m_startTime := 12, m_maxDuration := 2, m_frames := [f0, f1, f2, f3],
                  m_bLoop := true, m_bFinished := false, m_bReversed := false })] := by
  have hs : (((((construct α 2 true).AddFrame f0).AddFrame f1).AddFrame f2).AddFrame f3).Start 10 =
      { m_startTime := 10, m_maxDuration := 2, m_frames := [f0, f1, f2, f3],
        m_bLoop := true, m_bFinished := false, m_bReversed := false } := rfl
  rw [hs]
  obtain ⟨h10, h106, h106f, h12⟩ := temp_scenario
    ({ m_startTime := 10, m_maxDuration := 2, m_frames := [f0, f1, f2, f3],
       m_bLoop := true, m_bFinished := false, m_bReversed := false } : Animation α) rfl rfl rfl
  have c1 := getCurrentFrame_in_range
    ({ m_startTime := 10, m_maxDuration := 2, m_frames := [f0, f1, f2, f3],
       m_bLoop := true, m_bFinished := false, m_bReversed := false } : Animation α) 10
    (by simp) (by norm_num) (by rw [h10]; simp [intLtSize])
  have c2 := getCurrentFrame_in_range
    ({ m_startTime := 10, m_maxDuration := 2, m_frames := [f0, f1, f2, f3],
       m_bLoop := true, m_bFinished := false, m_bReversed := false } : Animation α) 10.6
    (by simp) (by norm_num) (by rw [h106]; simp [intLtSize])
  have c2f := getCurrentFrame_in_range
    ({ m_startTime := 10, m_maxDuration := 2, m_frames := [f0, f1, f2, f3],
       m_bLoop := true, m_bFinished := false, m_bReversed := false } : Animation α)
    (toFloat32 10.6) (by simp) (by norm_num) (by rw [h106f]; simp [intLtSize])
  have c3 := getCurrentFrame_eq_wrap
    ({ m_startTime := 10, m_maxDuration := 2, m_frames := [f0, f1, f2, f3],
       m_bLoop := true, m_bFinished := false, m_bReversed := false } : Animation α) 12
    rfl (by simp) (by norm_num) (by rw [h12]; simp [intLtSize])
  rw [h10] at c1
  rw [h106] at c2
  rw [h106f] at c2f
  simp only [callTrace, c1, c2, c2f, c3]
  simp [frameAt, front]

end Animation
/-! ## The registry -/

namespace SAnimationManager

variable {α : Type}

/-- C10. From every registry state: after `AddAnimation(name, a)` the lookup of
`name` yields an animation equal to `a` (whatever was stored under `name`
before), after `RemoveAnimation(name)` the lookup of `name` signals not-found,
and in both cases the lookup of every other name is unchanged. -/
theorem add_remove_get (m : SAnimationManager α) (name : String) (a : Animation α) :
    ((m.AddAnimation name a).GetAnimation name = some a ∧
        ∀ other : String, other ≠ name →
          (m.AddAnimation name a).GetAnimation other = m.GetAnimation other) ∧
      ((m.RemoveAnimation name).GetAnimation name = none ∧
        ∀ other : String, other ≠ name →
          (m.RemoveAnimation name).GetAnimation other = m.GetAnimation other) := by
  refine ⟨⟨?_, fun other hne => ?_⟩, ?_, fun other hne => ?_⟩
  · simp [AddAnimation, GetAnimation]
  · simp [AddAnimation, GetAnimation, Function.update_noteq hne]
  · unfold RemoveAnimation
    cases hlook : m.m_animations name with
    | none => simpa [GetAnimation] using hlook
    | some old => simp [GetAnimation]
  · unfold RemoveAnimation
    cases m.m_animations name with
    | none => rfl
    | some old => simp [GetAnimation, Function.update_noteq hne]

/-- Witness for C10: a registry holding one animation under `"walk"` and
another under `"idle"`; `"walk"` is replaced, respectively removed, and `"idle"`
is looked up. -/
theorem add_remove_get_witness :
    ((((empty Nat).AddAnimation "walk" (fourFrames true 2 1)).AddAnimation "idle"
          (fourFrames false 3 1)).AddAnimation "walk" (fourFrames false 5 7)).GetAnimation "idle" =
        some (fourFrames false 3 1) ∧
      ((((empty Nat).AddAnimation "walk" (fourFrames true 2 1)).AddAnimation "idle"
          (fourFrames false 3 1)).RemoveAnimation "walk").GetAnimation "idle" =
        some (fourFrames false 3 1) := by
  have h := add_remove_get
    (((empty Nat).AddAnimation "walk" (fourFrames true 2 1)).AddAnimation "idle"
      (fourFrames false 3 1)) "walk" (fourFrames false 5 7)
  refine ⟨(h.1.2 "idle" (by decide)).trans ?_, (h.2.2 "idle" (by decide)).trans ?_⟩ <;>
    simp [AddAnimation, GetAnimation]

end SAnimationManager

/-! ## Queries and start/stop through the registry -/

namespace SAnimationManager

variable {α : Type}

/-- C11. For every registry and name: when no animation is registered under the
name, `GetCurrentFrame`, `IsAnimationFinished` and `HasAnimationStarted` fail
with the animation-not-found error; when one is registered none of the three
fails with that error, and the last two return its `IsFinished()` and
`hasStarted()`. -/
theorem queries_not_found_iff (m : SAnimationManager α) (now : ℚ) (name : String) :
    (m.GetAnimation name = none →
        (m.GetCurrentFrame now name).1 = .error (.animationNotFound name) ∧
        m.IsAnimationFinished name = .error (.animationNotFound name) ∧
        m.HasAnimationStarted name = .error (.animationNotFound name)) ∧
      (∀ anim : Animation α, m.GetAnimation name = some anim →
        (∀ n : String, (m.GetCurrentFrame now name).1 ≠ .error (.animationNotFound n)) ∧
        m.IsAnimationFinished name = .ok anim.IsFinished ∧
        m.HasAnimationStarted name = .ok anim.hasStarted) := by
  refine ⟨fun hnone => ?_, fun anim hsome => ?_⟩
  · simp [GetCurrentFrame, IsAnimationFinished, HasAnimationStarted, hnone]
  · refine ⟨fun n => ?_, ?_, ?_⟩
    · simp only [GetCurrentFrame, hsome]
      cases (anim.GetCurrentFrame now).1 <;> simp [Except.mapError]
    · simp [IsAnimationFinished, hsome]
    · simp [HasAnimationStarted, hsome]

/-- Witness for C11: a registry with the single entry `"walk"`, queried for
`"idle"` and for `"walk"`. -/
theorem queries_not_found_iff_witness :
    (((empty Nat).AddAnimation "walk" (fourFrames false 2 1)).IsAnimationFinished "idle" =
        .error (.animationNotFound "idle")) ∧
      (((empty Nat).AddAnimation "walk" (fourFrames false 2 1)).HasAnimationStarted "walk" =
        .ok true) := by
  have h := queries_not_found_iff ((empty Nat).AddAnimation "walk" (fourFrames false 2 1)) 0
  refine ⟨((h "idle").1 ?_).2.1, (((h "walk").2 (fourFrames false 2 1) ?_).2.2).trans ?_⟩
  · simp [AddAnimation, GetAnimation, empty]
  · simp [AddAnimation, GetAnimation]
  · simp [Animation.hasStarted, fourFrames, Animation.Start]

/-- C12. For every registry and every name with no entry, `StartAnimation`,
`StartAnimationInReverse`, `StopAnimation` and `RemoveAnimation` return
normally and leave the whole registry as it was. -/
theorem unknown_name_noop (m : SAnimationManager α) (now : ℚ) (name : String)
    (hnone : m.GetAnimation name = none) :
    m.StartAnimation now name = m ∧ m.StartAnimationInReverse now name = m ∧
      m.StopAnimation name = m ∧ m.RemoveAnimation name = m := by
  have hraw : m.m_animations name = none := hnone
  refine ⟨?_, ?_, ?_, ?_⟩
  · simp [StartAnimation, hnone]
  · simp [StartAnimationInReverse, hnone]
  · simp [StopAnimation, hnone]
  · simp [RemoveAnimation, hraw]

/-- Witness for C12: the four operations on `"idle"` in a registry whose only
entry is `"walk"`. -/
theorem unknown_name_noop_witness :
    ((empty Nat).AddAnimation "walk" (fourFrames false 2 1)).StartAnimation 3 "idle" =
        (empty Nat).AddAnimation "walk" (fourFrames false 2 1) ∧
      ((empty Nat).AddAnimation "walk" (fourFrames false 2 1)).StartAnimationInReverse 3 "idle" =
        (empty Nat).AddAnimation "walk" (fourFrames false 2 1) ∧
      ((empty Nat).AddAnimation "walk" (fourFrames false 2 1)).StopAnimation "idle" =
        (empty Nat).AddAnimation "walk" (fourFrames false 2 1) ∧
      ((empty Nat).AddAnimation "walk" (fourFrames false 2 1)).RemoveAnimation "idle" =
        (empty Nat).AddAnimation "walk" (fourFrames false 2 1) :=
  unknown_name_noop _ 3 "idle" (by simp [AddAnimation, GetAnimation, empty])

/-- C13. For every registry with an animation `anim` stored under `name` and
every clock reading `now`: after `StartAnimation` the stored animation is `anim`
with reversed = false, start time = `now` and finished = false; after
`StartAnimationInReverse` it is `anim` with reversed = true, start time = `now`
and finished = false; frames, duration and loop flag are those of `anim`, and
the entry of every other name is unchanged. -/
theorem start_registered (m : SAnimationManager α) (now : ℚ) (name : String)
    (anim : Animation α) (hsome : m.GetAnimation name = some anim) :
    ((m.StartAnimation now name).GetAnimation name =
          some { anim with m_bReversed := false, m_startTime := now, m_bFinished := false } ∧
        ∀ other : String, other ≠ name →
          (m.StartAnimation now name).GetAnimation other = m.GetAnimation other) ∧
      ((m.StartAnimationInReverse now name).GetAnimation name =
          some { anim with m_bReversed := true, m_startTime := now, m_bFinished := false } ∧
        ∀ other : String, other ≠ name →
          (m.StartAnimationInReverse now name).GetAnimation other = m.GetAnimation other) := by
  have hraw : m.m_animations name = some anim := hsome
  refine ⟨⟨?_, fun other hne => ?_⟩, ?_, fun other hne => ?_⟩
  · simp [StartAnimation, GetAnimation, hraw, Animation.Start, Animation.SetInReverse]
  · simp [StartAnimation, GetAnimation, hraw, Function.update_noteq hne]
  · simp [StartAnimationInReverse, GetAnimation, hraw, Animation.Start, Animation.SetInReverse]
  · simp [StartAnimationInReverse, GetAnimation, hraw, Function.update_noteq hne]

/-- Witness for C13: a finished animation stored under `"walk"` is started in
reverse at clock reading 3. -/
theorem start_registered_witness :
    (((empty Nat).AddAnimation "walk" (fourFrames true 2 1).Stop).StartAnimationInReverse 3
        "walk").GetAnimation "walk" =
      some { m_startTime := 3, m_maxDuration := 2, m_frames := [10, 20, 30, 40],
             m_bLoop := true, m_bFinished := false, m_bReversed := true } := by
  have h := (start_registered ((empty Nat).AddAnimation "walk" (fourFrames true 2 1).Stop) 3
    "walk" (fourFrames true 2 1).Stop (by simp [AddAnimation, GetAnimation])).2.1
  rw [h]
  simp [fourFrames, Animation.construct, Animation.AddFrame, Animation.Start, Animation.Stop]

end SAnimationManager

/-! ## Frame queries through the registry -/

namespace SAnimationManager

variable {α : Type}

end SAnimationManager

/-! ## Reversed playback -/

namespace Animation

variable {α : Type}

/-- C16. On a reversed animation with `N ≥ 1` frames, duration `D > 0` and start
time `t0 > 0`, every call whose computed index `temp` is 0 selects position
`N - 0 = N`; no frame is stored at position `N`, so the lookup yields no frame,
and the animation is unchanged.  In particular this is the outcome of the call
at `now = t0` (for a size in the range of `std::size_t`), where the elapsed
time, the product and the quotient are all zero. -/
theorem getCurrentFrame_reversed_index_zero (a : Animation α)
    (hrev : a.m_bReversed = true) (hN : 1 ≤ a.m_frames.length)
    (hD : 0 < a.m_maxDuration) (ht0 : 0 < a.m_startTime) :
    (∀ now : ℚ, a.temp now = 0 →
        a.GetCurrentFrame now = (.error (.outOfRange a.m_frames.length), a)) ∧
      (a.m_frames.length < 2 ^ 64 →
        a.temp a.m_startTime = 0 ∧
        a.GetCurrentFrame a.m_startTime = (.error (.outOfRange a.m_frames.length), a)) ∧
      a.m_frames[a.m_frames.length]? = none := by
  have hzero : ∀ now : ℚ, a.temp now = 0 →
      a.GetCurrentFrame now = (.error (.outOfRange a.m_frames.length), a) := by
    intro now htemp
    have htest : intLtSize (a.temp now) a.m_frames.length = true := by
      rw [htemp]
      simp only [intLtSize, decide_eq_true_eq]
      omega
    rw [getCurrentFrame_in_range a now hN ht0 htest, htemp]
    simp [hrev, frameAt_of_le a.m_frames a.m_frames.length (le_refl _)]
  refine ⟨hzero, fun hsize => ?_, by simp⟩
  have htemp := temp_at_start a (ne_of_gt hD) hsize
  exact ⟨htemp, hzero _ htemp⟩

/-- Witness for C16: four frames, duration 2, reversed, started at time 1 and
asked at time 1. -/
theorem getCurrentFrame_reversed_index_zero_witness :
    ((fourFrames false 2 1).SetInReverse true).GetCurrentFrame 1 =
      (.error (.outOfRange 4), (fourFrames false 2 1).SetInReverse true) :=
  ((getCurrentFrame_reversed_index_zero ((fourFrames false 2 1).SetInReverse true) rfl
    (by decide)
    (by norm_num [fourFrames, construct, AddFrame, Start, SetInReverse])
    (by norm_num [fourFrames, construct, AddFrame, Start, SetInReverse])).2.1 (by decide)).2

end Animation

/-! ## Effect of a frame query on the animation, and the two started checks -/

namespace Animation

variable {α : Type}

/-- With a zero duration the quotient is an infinity or a NaN and `temp` is
`INT_MIN`, at every time. -/
theorem temp_of_zero_duration (a : Animation α) (now : ℚ) (hD : a.m_maxDuration = 0) :
    a.temp now = -2 ^ 31 := by
  have hdiv : ∀ x : Option ℚ, f32Div x 0 = none := by
    intro x
    cases x <;> simp [f32Div]
  simp only [temp, hD, hdiv, f32ToInt]

/-- With a zero duration every call on a running animation with frames reaches
the end branch. -/
theorem reachesEnd_of_zero_duration (a : Animation α) (now : ℚ)
    (hN : 1 ≤ a.m_frames.length) (ht0 : 0 < a.m_startTime) (hD : a.m_maxDuration = 0) :
    a.reachesEnd now = true := by
  simp [reachesEnd, isEmpty_eq_false_of_pos hN, ht0, temp_of_zero_duration a now hD,
    intLtSize]

/-- C17. For every animation and every time, `GetCurrentFrame` keeps the frames,
the duration, the loop flag and the reversed flag.  When the call reaches
the end branch on a looping animation (loop wrap) the result is the animation
with only the start time replaced by `now`; when it reaches that branch on a
non-looping animation (completion) the result is the stopped animation, with
start time `-1` and finished = true; in every other case the animation is
unchanged.  So the start time changes only in these two cases and the finished
flag only in the second.  The end branch is the one the code takes on the
index `temp` it computes in binary32. -/
theorem getCurrentFrame_frame_effect (a : Animation α) (now : ℚ) :
    ((a.GetCurrentFrame now).2.m_frames = a.m_frames ∧
        (a.GetCurrentFrame now).2.m_maxDuration = a.m_maxDuration ∧
        (a.GetCurrentFrame now).2.m_bLoop = a.m_bLoop ∧
        (a.GetCurrentFrame now).2.m_bReversed = a.m_bReversed) ∧
      (a.reachesEnd now = true → a.m_bLoop = true →
        (a.GetCurrentFrame now).2 = { a with m_startTime := now }) ∧
      (a.reachesEnd now = true → a.m_bLoop = false →
        (a.GetCurrentFrame now).2 = { a with m_startTime := -1, m_bFinished := true }) ∧
      (a.reachesEnd now = false → (a.GetCurrentFrame now).2 = a) ∧
      ((a.GetCurrentFrame now).2.m_startTime ≠ a.m_startTime →
        a.reachesEnd now = true ∧
          ((a.m_bLoop = true ∧ (a.GetCurrentFrame now).2.m_startTime = now) ∨
            (a.m_bLoop = false ∧ (a.GetCurrentFrame now).2.m_startTime = -1))) ∧
      ((a.GetCurrentFrame now).2.m_bFinished ≠ a.m_bFinished →
        a.reachesEnd now = true ∧ a.m_bLoop = false ∧
          (a.GetCurrentFrame now).2.m_bFinished = true) := by
  cases hE : a.m_frames.isEmpty
  · by_cases h0 : 0 < a.m_startTime
    · cases hT : intLtSize (a.temp now) a.m_frames.length
      · cases hL : a.m_bLoop <;> simp [GetCurrentFrame, reachesEnd, Stop, hE, h0, hT, hL]
      · simp [GetCurrentFrame, reachesEnd, hE, h0, hT]
    · simp [GetCurrentFrame, reachesEnd, hE, h0]
  · simp [GetCurrentFrame, reachesEnd, hE]

/-- Witness for C17: a looping animation asked two time units after its start
(loop wrap), and the same animation asked at its start time (unchanged). -/
theorem getCurrentFrame_frame_effect_witness :
    ((fourFrames true 2 1).GetCurrentFrame 3).2 = { fourFrames true 2 1 with m_startTime := 3 } ∧
      ((fourFrames true 2 1).GetCurrentFrame 1).2 = fourFrames true 2 1 := by
  have htemp3 : (fourFrames true 2 1).temp 3 = 4 := by
    have h := temp_eval_int (fourFrames true 2 1) 3 2 4 (by decide)
      (by norm_num [fourFrames, construct, AddFrame, Start]) (by norm_num)
      (by norm_num [fourFrames, construct, AddFrame, Start])
      (by norm_num [fourFrames, construct, AddFrame, Start])
      (by norm_num [fourFrames, construct, AddFrame, Start]) (by norm_num)
    simpa using h
  have htemp1 : (fourFrames true 2 1).temp 1 = 0 :=
    temp_at_start (fourFrames true 2 1)
      (by norm_num [fourFrames, construct, AddFrame, Start]) (by decide)
  have hpos : decide ((0 : ℚ) < (fourFrames true 2 1).m_startTime) = true := by
    norm_num [fourFrames, construct, AddFrame, Start]
  refine ⟨(getCurrentFrame_frame_effect (fourFrames true 2 1) 3).2.1 ?_ rfl,
    (getCurrentFrame_frame_effect (fourFrames true 2 1) 1).2.2.2.1 ?_⟩
  · simp only [reachesEnd, htemp3, hpos]
    decide
  · simp only [reachesEnd, htemp1, hpos]
    decide

/-- On a running animation with positive duration and at most `2 ^ 31` frames,
asked at a time not before its start at which the index computation is exact,
the end branch is reached exactly when the elapsed time has reached the
duration. -/
theorem reachesEnd_iff_elapsed (a : Animation α) (now : ℚ)
    (hN : 1 ≤ a.m_frames.length) (hint : a.m_frames.length ≤ 2 ^ 31)
    (hD : 0 < a.m_maxDuration) (ht0 : 0 < a.m_startTime)
    (hnow : a.m_startTime ≤ now) (hexact : a.exactQuotient now = true) :
    a.reachesEnd now = true ↔ a.m_startTime + a.m_maxDuration ≤ now := by
  have hNq : (0 : ℚ) < a.m_frames.length := by exact_mod_cast hN
  have hx0 : (0 : ℚ) ≤ (a.m_frames.length : ℚ) * (now - a.m_startTime) / a.m_maxDuration := by
    have : 0 ≤ now - a.m_startTime := by linarith
    positivity
  have hbranch : a.reachesEnd now = !intLtSize (a.temp now) a.m_frames.length := by
    simp [reachesEnd, isEmpty_eq_false_of_pos hN, ht0]
  rw [hbranch, temp_of_exactQuotient a now hexact (ne_of_gt hD)]
  constructor
  · intro h
    by_contra hc
    have hlt : (a.m_frames.length : ℚ) * (now - a.m_startTime) / a.m_maxDuration <
        a.m_frames.length := by
      rw [div_lt_iff₀ hD]
      exact mul_lt_mul_of_pos_left (by linarith) hNq
    have hfN : ⌊(a.m_frames.length : ℚ) * (now - a.m_startTime) / a.m_maxDuration⌋ <
        (a.m_frames.length : Int) := Int.floor_lt.mpr (by exact_mod_cast hlt)
    have hf0 := Int.floor_nonneg.mpr hx0
    have hfit : ⌊(a.m_frames.length : ℚ) * (now - a.m_startTime) / a.m_maxDuration⌋ < 2 ^ 31 :=
      lt_of_lt_of_le hfN (by exact_mod_cast hint)
    rw [f32ToInt_of_nonneg hx0 hfit] at h
    simp [intLtSize, hf0, hfN] at h
  · intro h
    have hge : (a.m_frames.length : ℚ) ≤
        (a.m_frames.length : ℚ) * (now - a.m_startTime) / a.m_maxDuration := by
      rw [le_div_iff₀ hD]
      exact mul_le_mul_of_nonneg_left (by linarith) hNq.le
    rw [intLtSize_of_ge hge]
    rfl

/-- Every call of a sequence on an animation with frames whose start time is
not positive returns the first frame and leaves the animation unchanged. -/
theorem callTrace_not_positive (times : List ℚ) (a : Animation α)
    (hN : 1 ≤ a.m_frames.length) (hns : ¬ 0 < a.m_startTime) :
    ∀ r ∈ callTrace a times, r = (.ok (a.m_frames.get ⟨0, hN⟩), a) := by
  induction times with
  | nil => intro r hr; simp [callTrace] at hr
  | cons t ts ih =>
    intro r hr
    simp only [callTrace, List.mem_cons, getCurrentFrame_eq_front a t hN hns] at hr
    rcases hr with rfl | hr
    · rfl
    · exact ih r hr

/-- When the subtraction overflows, the elapsed time is an infinity and `temp`
is `INT_MIN`. -/
theorem temp_of_overflow (a : Animation α) (now : ℚ) (h : 2 ^ 128 ≤ |now - a.m_startTime|) :
    a.temp now = -2 ^ 31 := by
  have he : a.elapsedTime now = none := by
    simp only [elapsedTime, f32Sub]
    exact f32Round_overflow _ h
  have hmul : ∀ x : Option ℚ, f32Mul x none = none := by
    intro x
    cases x <;> rfl
  simp only [temp, he, hmul, f32Div, f32ToInt]

/-- C18. Frame selection treats an animation (with frames and a positive
duration) as started exactly when its start time is strictly positive: some
call changes the animation if and only if `0 < m_startTime`.  For every
animation with `N ≥ 1` frames, after `Start(0)` every call, at whatever time,
returns the frame at position 0 and leaves the animation unchanged, so along
every sequence of calls the animation is never finished, looping or not. -/
theorem getCurrentFrame_started_at_zero (a : Animation α) (hN : 1 ≤ a.m_frames.length) :
    (0 < a.m_maxDuration →
        ((∃ now : ℚ, (a.GetCurrentFrame now).2 ≠ a) ↔ 0 < a.m_startTime)) ∧
      (∀ now : ℚ,
        (a.Start 0).GetCurrentFrame now = (.ok (a.m_frames.get ⟨0, hN⟩), a.Start 0)) ∧
      (∀ times : List ℚ, ∀ r ∈ callTrace (a.Start 0) times,
        r.1 = .ok (a.m_frames.get ⟨0, hN⟩) ∧ r.2 = a.Start 0 ∧ r.2.IsFinished = false) := by
  have hzero : ¬ 0 < (a.Start 0).m_startTime := by simp [Start]
  refine ⟨fun _ => ⟨?_, fun ht0 => ?_⟩, fun now => ?_, fun times r hr => ?_⟩
  · rintro ⟨now, hchange⟩
    by_contra hns
    exact hchange (by rw [getCurrentFrame_eq_front a now hN hns])
  · have hover : (2 : ℚ) ^ 128 ≤ |(-(2 ^ 129) : ℚ) - a.m_startTime| := by
      rw [abs_of_neg (by linarith [show (0 : ℚ) < 2 ^ 129 by positivity])]
      have : (2 : ℚ) ^ 128 ≤ 2 ^ 129 := by norm_num
      linarith
    have htest : intLtSize (a.temp (-(2 ^ 129))) a.m_frames.length = false := by
      rw [temp_of_overflow a _ hover]
      exact intLtSize_int_min _
    refine ⟨-(2 ^ 129), fun heq => ?_⟩
    have hst := congrArg Animation.m_startTime heq
    cases hL : a.m_bLoop
    · rw [getCurrentFrame_eq_stop a _ hL hN ht0 htest] at hst
      simp only [Stop] at hst
      linarith
    · rw [getCurrentFrame_eq_wrap a _ hL hN ht0 htest] at hst
      simp only at hst
      linarith [show (0 : ℚ) < 2 ^ 129 by positivity]
  · exact getCurrentFrame_eq_front (a.Start 0) now hN hzero
  · have h := callTrace_not_positive times (a.Start 0) hN hzero r hr
    rw [h]
    exact ⟨rfl, rfl, rfl⟩

/-- Witness for C18: four frames, duration 2, not looping, started at time 0 and
asked at time 5. -/
theorem getCurrentFrame_started_at_zero_witness :
    (fourFrames false 2 0).GetCurrentFrame 5 = (.ok 10, fourFrames false 2 0) := by
  have h := (getCurrentFrame_started_at_zero (fourFrames false 2 1) (by decide)).2.1 5
  simpa [fourFrames, construct, AddFrame, Start] using h

/-- One call keeps the property that a finished animation has the start time
`-1`. -/
theorem applyCall_finished_sentinel (a : Animation α) (c : Call α)
    (hinv : a.m_bFinished = true → a.m_startTime = -1) :
    (a.applyCall c).m_bFinished = true → (a.applyCall c).m_startTime = -1 := by
  cases c with
  | addFrame f => simpa [applyCall, AddFrame] using hinv
  | setLooping b => simpa [applyCall, SetLooping] using hinv
  | setInReverse b => simpa [applyCall, SetInReverse] using hinv
  | start t => simp [applyCall, Start]
  | stop => simp [applyCall, Stop]
  | getCurrentFrame t =>
    intro hfin
    by_cases hend : a.reachesEnd t = true
    · cases hL : a.m_bLoop
      · have h := (getCurrentFrame_state_cases a t).2.1 hend hL
        simp [applyCall, h, Stop]
      · have h := (getCurrentFrame_state_cases a t).1 hend hL
        simp only [applyCall, h] at hfin
        have hneg := hinv hfin
        have hpos : 0 < a.m_startTime := by
          simp only [reachesEnd, Bool.and_eq_true, decide_eq_true_eq] at hend
          exact hend.1.2
        linarith
    · have h := (getCurrentFrame_state_cases a t).2.2 (by simpa using hend)
      simp only [applyCall, h] at hfin ⊢
      exact hinv hfin

/-- A sequence of calls keeps the property that a finished animation has the
start time `-1`. -/
theorem applyCalls_finished_sentinel (calls : List (Call α)) (a : Animation α)
    (hinv : a.m_bFinished = true → a.m_startTime = -1) :
    (a.applyCalls calls).m_bFinished = true → (a.applyCalls calls).m_startTime = -1 := by
  induction calls generalizing a with
  | nil => exact hinv
  | cons c cs ih => exact ih (a.applyCall c) (applyCall_finished_sentinel a c hinv)

/-- C19. In every state reached from a freshly constructed animation by a
sequence of `AddFrame`, `SetLooping`, `SetInReverse`, `Start`, `Stop` and
`GetCurrentFrame` calls with arbitrary arguments, a finished animation has the
start time `-1`; so `IsFinished()` and `hasStarted()` are never both true. -/
theorem finished_excludes_started (d : ℚ) (loop : Bool) (calls : List (Call α)) :
    (((construct α d loop).applyCalls calls).IsFinished = true →
        ((construct α d loop).applyCalls calls).m_startTime = -1) ∧
      ¬ (((construct α d loop).applyCalls calls).IsFinished = true ∧
          ((construct α d loop).applyCalls calls).hasStarted = true) := by
  have hinv := applyCalls_finished_sentinel calls (construct α d loop)
    (by simp [construct])
  refine ⟨hinv, fun ⟨hfin, hst⟩ => ?_⟩
  have hneg := hinv hfin
  simp only [hasStarted, hneg, decide_eq_true_eq] at hst
  linarith

/-- Witness for C19: one frame added, started at time 1 and asked at time 5 on a
non-looping animation of duration 2, which finishes it. -/
theorem finished_excludes_started_witness :
    ((construct Nat 2 false).applyCalls
        [.addFrame 7, .start 1, .getCurrentFrame 5]).m_startTime = -1 := by
  refine (finished_excludes_started 2 false
    [Call.addFrame (7 : Nat), .start 1, .getCurrentFrame 5]).1 ?_
  have htemp : (((construct Nat 2 false).AddFrame 7).Start 1).temp 5 = 2 := by
    have h := temp_eval_int (((construct Nat 2 false).AddFrame 7).Start 1) 5 4 2 (by decide)
      (by norm_num [construct, AddFrame, Start]) (by norm_num)
      (by norm_num [construct, AddFrame, Start])
      (by norm_num [construct, AddFrame, Start])
      (by norm_num [construct, AddFrame, Start]) (by norm_num)
    simpa using h
  have hcall := getCurrentFrame_eq_stop (((construct Nat 2 false).AddFrame 7).Start 1) 5 rfl
    (by decide) (by norm_num [construct, AddFrame, Start]) (by rw [htemp]; decide)
  simp only [applyCalls, applyCall, hcall]
  rfl

/-- C20, evaluated on a failing input.  After `Start(0)` on a non-looping
animation with frames `10, 20, 30, 40` and duration 2, `hasStarted()` is true,
yet `GetCurrentFrame(5)` returns the first frame and changes nothing: the
elapsed-time branch is not taken.  The same animation started at time 1 and
asked at time 6 (the same elapsed time) takes it: last frame, animation
stopped. -/
theorem hasStarted_true_but_not_selected :
    (fourFrames false 2 0).hasStarted = true ∧
      (fourFrames false 2 0).GetCurrentFrame 5 = (.ok 10, fourFrames false 2 0) ∧
      (fourFrames false 2 1).hasStarted = true ∧
      (fourFrames false 2 1).GetCurrentFrame 6 = (.ok 40, (fourFrames false 2 1).Stop) := by
  have htemp : (fourFrames false 2 1).temp 6 = 10 := by
    have h := temp_eval_int (fourFrames false 2 1) 6 5 10 (by decide)
      (by norm_num [fourFrames, construct, AddFrame, Start]) (by norm_num)
      (by norm_num [fourFrames, construct, AddFrame, Start])
      (by norm_num [fourFrames, construct, AddFrame, Start])
      (by norm_num [fourFrames, construct, AddFrame, Start]) (by norm_num)
    simpa using h
  refine ⟨?_, ?_, ?_, ?_⟩
  · simp [hasStarted, fourFrames, construct, AddFrame, Start]
  · rw [getCurrentFrame_eq_front _ 5 (by decide)
      (by norm_num [fourFrames, construct, AddFrame, Start])]
    rfl
  · simp [hasStarted, fourFrames, construct, AddFrame, Start]
  · rw [getCurrentFrame_eq_stop _ _ rfl (by decide)
      (by norm_num [fourFrames, construct, AddFrame, Start]) (by rw [htemp]; decide)]
    rfl

end Animation
